import Mathlib

/-!
A shallow embedding of the core of the `httpfs` static file server:
the cache builder (`findNames`, the slash-count sort, `findDirs`,
`cacheFiles`), the cached file system (`Open`, `Ropen`, `file.Get`,
`GetEncoding`), the conditional-GET check (`checkIfModifiedSince`) and
the serving pipeline decisions of `FileServer` (index substitution,
index redirect, encoding selection).

Conventions of the embedding:
- byte strings are `List Nat`;
- time instants are integers (seconds); the zero `time.Time` is `0`;
- Go maps used only for lookup/insert are association lists with
  insert-or-replace update (`alUpdate`);
- external collaborators are parameters: the compression codec registry
  is `comp : String -> Bytes -> Option Bytes` (`none` models the error
  `compress.NewWriter` returns for an unknown algorithm name), content
  negotiation (`compress.GetEncoding`) is
  `negotiate : String -> List String -> String` over the request's
  Accept-Encoding header, and the `CompressIgnore` regexp is an
  abstract predicate `String -> Bool` (its `MatchString`);
- `sort.Slice` (an unstable comparison sort) is modelled by
  `List.insertionSort` over the same comparator ordering; every
  correct implementation of `sort.Slice` produces a list ordered by
  the comparator, which is the property the development relies on.
-/

namespace Httpfs

abbrev Bytes := List Nat

/-! ## String helpers (Go `path` and `strings` functions) -/

/-- Go `strings.Count(s, "/")`: number of slash characters. -/
def countSlash (s : String) : Nat := s.data.count '/'

/-- Character-level lowercasing of ASCII letters, as `strings.ToLower`
does for the algorithm names used here. -/
def lowerChar (c : Char) : Char :=
  if 'A' ≤ c ∧ c ≤ 'Z' then Char.ofNat (c.toNat + 32) else c

/-- Go `strings.ToLower`. -/
def strLower (s : String) : String := ⟨s.data.map lowerChar⟩

/-- Go `strings.TrimSuffix(s, "/")` specialised helper:
drop a given suffix when present. -/
def strTrimSuffix (s suf : String) : String :=
  if suf.data.isSuffixOf s.data then ⟨s.data.take (s.data.length - suf.data.length)⟩ else s

/-- Whether `s` starts with `p` (Go `strings.HasPrefix` / `s[0] == c`). -/
def strStarts (s p : String) : Bool := p.data.isPrefixOf s.data

/-- Whether `s` ends with `p` (Go `strings.HasSuffix`). -/
def strEnds (s p : String) : Bool := p.data.isSuffixOf s.data

/-- Split a character list at a separator character; mirrors
`strings.Split`' behaviour on each segment. -/
def splitChar (c : Char) : List Char → List (List Char)
  | [] => [[]]
  | x :: xs =>
    let r := splitChar c xs
    if x = c then [] :: r
    else
      match r with
      | y :: ys => (x :: y) :: ys
      | [] => [[x]]

/-- Join character-list segments with a slash. -/
def joinSlash : List (List Char) → List Char
  | [] => []
  | [s] => s
  | s :: rest => s ++ '/' :: joinSlash rest

/-- One step of Go `path.Clean`'s segment processing: empty and `.`
segments are dropped, `..` pops (kept leading when not rooted). -/
def cleanFold (rooted : Bool) (acc : List (List Char)) (s : List Char) : List (List Char) :=
  if s = [] ∨ s = ['.'] then acc
  else if s = ['.', '.'] then
    if acc ≠ [] ∧ acc.getLast? ≠ some ['.', '.'] then acc.dropLast
    else if rooted then acc
    else acc ++ [['.', '.']]
  else acc ++ [s]

/-- Go `path.Clean`. -/
def pathClean (p : String) : String :=
  if p = "" then "." else
  let rooted := strStarts p "/"
  let segs := (splitChar '/' p.data).foldl (cleanFold rooted) []
  if segs = [] then (if rooted then "/" else ".")
  else (if rooted then "/" else "") ++ ⟨joinSlash segs⟩

/-- Go `path.Join(a, b)`. -/
def pathJoin (a b : String) : String :=
  if a = "" ∧ b = "" then ""
  else if a = "" then pathClean b
  else if b = "" then pathClean a
  else pathClean (a ++ "/" ++ b)

/-- Go `path.Base`. -/
def pathBase (s : String) : String :=
  if s = "" then "." else
  let r := s.data.reverse.dropWhile (· = '/')
  if r = [] then "/" else ⟨(r.takeWhile (· ≠ '/')).reverse⟩

/-- Go `path.Dir`. -/
def pathDir (s : String) : String :=
  let r := s.data.reverse
  let afterBase := r.dropWhile (· ≠ '/')
  match afterBase with
  | [] => "."
  | _ :: _ =>
    let d := afterBase.dropWhile (· = '/')
    if d = [] then "/" else ⟨d.reverse⟩

/-- `toBaseName` from httpfs.go: trailing (back)slashes are stripped,
then the part after the last (back)slash is returned. -/
def toBaseName (s : String) : String :=
  let isSep : Char → Bool := fun c => c = '/' ∨ c = '\\'
  let r := s.data.reverse.dropWhile isSep
  ⟨(r.takeWhile (fun c => ¬ isSep c)).reverse⟩

/-! ## Association lists standing in for Go maps -/

/-- Go map assignment `m[k] = v`: replace an existing binding or append. -/
def alUpdate (k : String) (v : α) : List (String × α) → List (String × α)
  | [] => [(k, v)]
  | (k', v') :: rest => if k' = k then (k, v) :: rest else (k', v') :: alUpdate k v rest

/-! ## The virtual file provider (`http.FileSystem` input of `Cache`) -/

/-- A provider tree: the hierarchical open/stat/list-children
collaborator the cache builder walks. Each node carries the `Mode()`
and `ModTime()` its `Stat` reports; files carry contents. -/
inductive FsTree where
  | file (mode : Nat) (modTime : Int) (contents : Bytes)
  | dir (mode : Nat) (modTime : Int) (children : List (String × FsTree))
deriving Repr

/-- Mode and mod-time a `Stat` on this node reports. -/
def FsTree.mode : FsTree → Nat
  | .file m _ _ => m
  | .dir m _ _ => m

def FsTree.modTime : FsTree → Int
  | .file _ t _ => t
  | .dir _ t _ => t

/-- `ioutil.ReadAll` on an opened node: a file's contents; reading a
directory handle errors. -/
def FsTree.readAll : FsTree → Option Bytes
  | .file _ _ c => some c
  | .dir _ _ _ => none

/-- Look a path segment up among a node's children; children are
identified by the base name of their reported `Name()`, matching the
names `findNames` joins into paths. -/
def childLookup (s : String) : List (String × FsTree) → Option FsTree
  | [] => none
  | (k, t) :: rest => if toBaseName k = s then some t else childLookup s rest

/-- `fs.Open(name)` on the provider tree: walk the slash-separated
segments of `name` from the root. -/
def fsWalk : FsTree → List (List Char) → Option FsTree
  | t, [] => some t
  | t, s :: rest =>
    if s = [] then fsWalk t rest
    else
      match t with
      | .file _ _ _ => none
      | .dir _ _ ch =>
        match childLookup ⟨s⟩ ch with
        | none => none
        | some c => fsWalk c rest

def fsOpen (t : FsTree) (name : String) : Option FsTree :=
  fsWalk t (splitChar '/' name.data)

/-! ## `findNames`: the recursive walk collecting every file path -/

mutual
/-- `findNames` from the source: a file contributes its own name, a
directory recurses into each child under the joined path; an entry
resolving back to the directory itself is skipped. -/
def findNames (name : String) : FsTree → List String
  | .file _ _ _ => [name]
  | .dir _ _ children => findNamesList name children

def findNamesList (name : String) : List (String × FsTree) → List String
  | [] => []
  | c :: rest =>
    let fullname := pathJoin name (toBaseName c.1)
    (if fullname = name then [] else findNames fullname c.2) ++ findNamesList name rest
end

/-! ## File metadata (`fileInfo`) and directory entries (`dir`) -/

/-- `os.ModeDir`, the directory mode bit. -/
def modeDir : Nat := 2 ^ 31

/-- The `fileInfo` struct; its `Size()` method is the constant `0`
(see `fileInfoSize`). -/
structure FileInfo where
  baseName : String
  mode : Nat
  modTime : Int
  isDir : Bool
deriving Repr, DecidableEq

/-- `newFileInfo`: `isDir` is the equality test `mode == os.ModeDir`. -/
def newFileInfo (baseName : String) (mode : Nat) (modTime : Int) : FileInfo :=
  { baseName := baseName, mode := mode, modTime := modTime, isDir := mode = modeDir }

/-- `fileInfo.Size()` returns `0` unconditionally. -/
def fileInfoSize (_ : FileInfo) : Int := 0

/-- The `dir` cache entry: its own `fileInfo` plus the children its
`Readdir` returns. A child that is itself a directory is observed
through the `os.FileInfo` interface, i.e. through its `fileInfo`. -/
structure DirEntry where
  info : FileInfo
  name : String
  baseName : String
  children : List FileInfo
deriving Repr, DecidableEq

/-- `newDir`. -/
def newDir (fi : FileInfo) (fullname : String) : DirEntry :=
  let baseName := pathBase fullname
  { info := newFileInfo baseName modeDir fi.modTime
    name := fullname
    baseName := baseName
    children := [] }

/-- The loop body of `findDirs` for one file path `name`. -/
def findDirsStep (fs : FsTree) (dirs : List (String × DirEntry)) (name : String) :
    Option (List (String × DirEntry)) :=
  match fsOpen fs name with
  | none => none
  | some t =>
    let dirName := pathDir name
    let dirs :=
      match List.lookup dirName dirs with
      | some _ => dirs
      | none =>
        let fi := newFileInfo (pathBase dirName) modeDir t.modTime
        alUpdate dirName (newDir fi dirName) dirs
    match List.lookup dirName dirs with
    | none => none
    | some d =>
      let fi := newFileInfo (pathBase name) t.mode t.modTime
      let parentName := pathDir dirName
      let dirs :=
        match List.lookup parentName dirs with
        | some parent =>
          alUpdate parentName { parent with children := parent.children ++ [d.info] } dirs
        | none => dirs
      match List.lookup dirName dirs with
      | none => none
      | some d' => some (alUpdate dirName { d' with children := d'.children ++ [fi] } dirs)

/-- `findDirs`: fold the step over the (sorted) file names. -/
def findDirs (fs : FsTree) : List String → List (String × DirEntry) →
    Option (List (String × DirEntry))
  | [], dirs => some dirs
  | n :: rest, dirs =>
    match findDirsStep fs dirs n with
    | none => none
    | some dirs' => findDirs fs rest dirs'

/-! ## File cache entries and `cacheFiles` -/

/-- A `file` value in its cache-store role: `algs` maps an encoding
name (empty string for the original) to stored bytes. -/
structure CFile where
  name : String
  baseName : String
  info : FileInfo
  algs : List (String × Bytes)
deriving Repr, DecidableEq

/-- A `file` value in its served role, as `Get` returns it: the chosen
encoding in `alg` and its bytes behind the `ReadSeeker`. -/
structure OpenFile where
  name : String
  baseName : String
  info : FileInfo
  alg : String
  contents : Bytes
deriving Repr, DecidableEq

/-- `newFile`. -/
def newFile (name : String) (fi : FileInfo) (algs : List (String × Bytes)) : CFile :=
  { name := name, baseName := pathBase name, info := fi, algs := algs }

/-- `file.Get`: serve the variant stored under `alg`, falling back to
the uncompressed (empty-key) variant when absent. The Go code recurses
into `Get("")` on a miss; a store without the empty key would make that
recursion diverge, which the embedding returns as `none`. -/
def CFile.get (f : CFile) (alg : String) : Option OpenFile :=
  match List.lookup alg f.algs with
  | some contents =>
    some { name := f.name, baseName := f.baseName, info := f.info, alg := alg,
           contents := contents }
  | none =>
    match List.lookup "" f.algs with
    | some contents =>
      some { name := f.name, baseName := f.baseName, info := f.info, alg := "",
             contents := contents }
    | none => none

/-- The `brotli` alias rewrite inside the compression loop. -/
def renameAlg (a : String) : String := if a = "brotli" then "br" else a

/-- The compression loop of `cacheFiles`: for each configured encoding,
compress the original contents with the (lowercased) algorithm name and
store the result under the (alias-rewritten) name. `comp` is the codec
registry; `none` is a `compress.NewWriter`/write error and aborts. -/
def compressAll (comp : String → Bytes → Option Bytes) (contents : Bytes) :
    List String → List (String × Bytes) → Option (List (String × Bytes))
  | [], algs => some algs
  | a :: rest, algs =>
    match comp (strLower (renameAlg a)) contents with
    | none => none
    | some bs => compressAll comp contents rest (alUpdate (renameAlg a) bs algs)

/-- The guard `compressIgnore != nil && compressIgnore.MatchString(name)`. -/
def ignoreMatches (compressIgnore : Option (String → Bool)) (name : String) : Bool :=
  match compressIgnore with
  | some p => p name
  | none => false

/-- The per-file body of `cacheFiles`: read the contents, store the
original under the empty key, and unless the file is below the minimum
size or matches the ignore pattern, add every configured encoding. -/
def cacheFile (comp : String → Bytes → Option Bytes) (fs : FsTree)
    (compressAlgs : List String) (compressMinSize : Int)
    (compressIgnore : Option (String → Bool)) (name : String) : Option CFile :=
  match fsOpen fs name with
  | none => none
  | some t =>
    match t.readAll with
    | none => none
    | some contents =>
      let fi := newFileInfo (pathBase name) t.mode t.modTime
      let algs : List (String × Bytes) := [("", contents)]
      if compressMinSize > 0 ∧ compressMinSize > (contents.length : Int) then
        some (newFile name fi algs)
      else if ignoreMatches compressIgnore name then
        some (newFile name fi algs)
      else
        match compressAll comp contents compressAlgs algs with
        | none => none
        | some algs => some (newFile name fi algs)

/-- `cacheFiles`: build the file map over all names. -/
def cacheFiles (comp : String → Bytes → Option Bytes) (fs : FsTree)
    (compressAlgs : List String) (compressMinSize : Int)
    (compressIgnore : Option (String → Bool)) :
    List String → List (String × CFile) → Option (List (String × CFile))
  | [], list => some list
  | n :: rest, list =>
    match cacheFile comp fs compressAlgs compressMinSize compressIgnore n with
    | none => none
    | some cf =>
      cacheFiles comp fs compressAlgs compressMinSize compressIgnore rest (alUpdate n cf list)

/-! ## The `Cache` constructor and the cached file system -/

/-- `CacheOptions`. -/
structure CacheOptions where
  compressMinSize : Int
  compressIgnore : Option (String → Bool)
  encodings : List String

/-- The comparator ordering of the `sort.Slice` call in `Cache`:
element `i` sorts before element `j` when
`strings.Count(names[j], "/") > strings.Count(names[i], "/")`,
i.e. ascending slash count. -/
def byCount (a b : String) : Prop := countSlash a ≤ countSlash b

instance : DecidableRel byCount := fun a b => Nat.decLe (countSlash a) (countSlash b)

/-- The sorting step of `Cache` (see the note on `sort.Slice` above). -/
def sortNames (names : List String) : List String := names.insertionSort byCount

/-- The cached file system value `Cache` builds. -/
structure CacheFS where
  n : Nat
  dirs : List (String × DirEntry)
  files : List (String × CFile)
  algs : List String
deriving Repr, DecidableEq

/-- `Cache`: enumerate, sort, build the directory index and the file
cache. Any error aborts the build (`none`). -/
def Cache (comp : String → Bytes → Option Bytes) (fs : FsTree) (options : CacheOptions) :
    Option CacheFS :=
  let names := findNames "/" fs
  let names := sortNames names
  match findDirs fs names [] with
  | none => none
  | some dirs =>
    match cacheFiles comp fs options.encodings options.compressMinSize
        options.compressIgnore names [] with
    | none => none
    | some files =>
      some { n := names.length, dirs := dirs, files := files, algs := options.encodings }

/-- The error open can report: `os.ErrNotExist`. -/
inductive OpenErr where
  | notExist
deriving Repr, DecidableEq

/-- What an open on the cached file system yields. -/
inductive OpenedEntry where
  | dirE (d : DirEntry)
  | fileE (f : OpenFile)
deriving Repr, DecidableEq

instance {ε α : Type} [DecidableEq ε] [DecidableEq α] : DecidableEq (Except ε α) :=
  fun a b =>
    match a, b with
    | .ok x, .ok y =>
      if h : x = y then .isTrue (by rw [h]) else .isFalse (fun hc => by cases hc; exact h rfl)
    | .error x, .error y =>
      if h : x = y then .isTrue (by rw [h]) else .isFalse (fun hc => by cases hc; exact h rfl)
    | .ok _, .error _ => .isFalse (fun hc => by cases hc)
    | .error _, .ok _ => .isFalse (fun hc => by cases hc)

/-- The leading-slash normalization shared by `Open` and `Ropen`:
`if name == "" || name[0] != '/' { name = "/" + name }`. -/
def slashed (name : String) : String :=
  if name = "" ∨ ¬ strStarts name "/" then "/" ++ name else name

/-- `cacheFS.Open`: directories first, then the uncompressed variant of
a cached file, else `os.ErrNotExist`. The outer `none` models the
divergence of `Get("")` on a store missing the empty key. -/
def CacheFS.openFS (c : CacheFS) (name : String) : Option (Except OpenErr OpenedEntry) :=
  let name := slashed name
  match List.lookup name c.dirs with
  | some d => some (.ok (.dirE d))
  | none =>
    match List.lookup name c.files with
    | some f =>
      match f.get "" with
      | some of => some (.ok (.fileE of))
      | none => none
    | none => some (.error .notExist)

/-- The request data the pipeline consults. -/
structure Req where
  method : String
  path : String
  rawQuery : String
  acceptEnc : String
  ims : String

/-- `cacheFS.Ropen`: like `Open` but negotiating the encoding with
`compress.GetEncoding(r, c.algs)`, modelled by the abstract
`negotiate` applied to the request's Accept-Encoding header. -/
def CacheFS.ropen (negotiate : String → List String → String) (c : CacheFS)
    (name : String) (r : Req) : Option (Except OpenErr OpenedEntry) :=
  let name := slashed name
  match List.lookup name c.dirs with
  | some d => some (.ok (.dirE d))
  | none =>
    match List.lookup name c.files with
    | some f =>
      let encoding := negotiate r.acceptEnc c.algs
      match f.get encoding with
      | some of => some (.ok (.fileE of))
      | none => none
    | none => some (.error .notExist)

/-! ## `checkIfModifiedSince` -/

/-- The two error classes `checkIfModifiedSince` distinguishes: an
error wrapping `errPreconditionFailed`, or the `http.ParseTime` error. -/
inductive CheckErr where
  | preconditionFailed
  | parseError
deriving Repr, DecidableEq

/-- `checkIfModifiedSince`: `parse` is `http.ParseTime` (`none` = parse
error), `modtime` is the modification time with `0` the zero time, and
`t.Add(1 * time.Second)` is `t + 1`. `modtime.UTC()` denotes the same
instant as `modtime`. -/
def checkIfModifiedSince (parse : String → Option Int) (method : String)
    (ims : String) (modtime : Int) : Bool × Option CheckErr :=
  if method ≠ "GET" ∧ method ≠ "HEAD" then (false, some .preconditionFailed)
  else if ims = "" ∨ modtime = 0 then (false, some .preconditionFailed)
  else
    match parse ims with
    | none => (false, some .parseError)
    | some t => if modtime < t + 1 then (false, none) else (true, none)

/-! ## The `FileServer` request pipeline

The handler is modelled at the decision level: the response records the
status code, the Location and Content-Encoding headers, whether the
response writer was wrapped in an on-the-fly compressing writer,
whether Last-Modified / Content-Disposition were set, and the served
bytes. `http.ServeContent` (range/validator handling) is the external
final-delivery collaborator and is modelled as a 200 with the content
bytes; HTTP/2 pushes and the rate-limiting wrapper change none of the
recorded fields and are not modelled. A `Stat` failure after a
successful open yields the same 404 as an open failure and is folded
into the open function returning `none`. -/

/-- The `Options` fields the modelled pipeline consults. -/
structure Options where
  indexName : String
  compress : Bool
  showList : Bool
  attachmentsEnable : Bool
  allow : Option (String → Bool)

/-- What the active provider's open (plain `Open` or negotiated
`Ropen`) hands the pipeline: a cache-built file or directory, or an
entry of a non-cached provider. -/
inductive GEntry where
  | cfile (f : OpenFile)
  | cdir (d : DirEntry)
  | pfile (info : FileInfo) (contents : Bytes)
  | pdir (info : FileInfo)
deriving Repr, DecidableEq

def GEntry.info : GEntry → FileInfo
  | .cfile f => f.info
  | .cdir d => d.info
  | .pfile i _ => i
  | .pdir i => i

def GEntry.contents : GEntry → Bytes
  | .cfile f => f.contents
  | .pfile _ c => c
  | .cdir _ => []
  | .pdir _ => []

/-- `GetEncoding`: the type assertion to `*file` succeeds exactly on
cache-built files, reporting the encoding the file was cached with. -/
def GetEncoding : GEntry → String × Bool
  | .cfile f => (f.alg, true)
  | _ => ("", false)

/-- The response facts the modelled pipeline produces. -/
structure Resp where
  status : Nat := 200
  location : Option String := none
  contentEncoding : Option String := none
  compressWrapped : Bool := false
  lastModifiedSet : Bool := false
  dispositionSet : Bool := false
  body : Option Bytes := none
  allowDenied : Bool := false
deriving Repr, DecidableEq

/-- `localRedirect`: a 301 with the raw query appended to the target
when non-empty, serving no content. -/
def localRedirect (rawQuery : String) (newPath : String) : Resp :=
  let newPath := if rawQuery ≠ "" then newPath ++ "?" ++ rawQuery else newPath
  { status := 301, location := some newPath }

/-- The setup `FileServer` performs before returning the handler:
the index name is given a leading slash (`prefix(s, "/")`, the same
normalization as `slashed`). -/
def normalizeOptions (options : Options) : Options :=
  { options with
    indexName := if options.indexName ≠ "" then slashed options.indexName
                 else options.indexName }

/-- Path resolution of the handler: open the request path and, when it
is a directory and an index name is configured, substitute the index
file when it opens; the flag records whether the substitution
happened. -/
def resolveOpen (openF : String → Req → Option GEntry) (options : Options) (r : Req) :
    Option (GEntry × Bool) :=
  let name := slashed r.path
  match openF name r with
  | none => none
  | some f0 =>
    let sub :=
      if f0.info.isDir ∧ options.indexName ≠ "" then
        openF (strTrimSuffix name "/" ++ options.indexName) r
      else none
    match sub with
    | some fi => some (fi, true)
    | none => some (f0, false)

/-- The `FileServer` handler body (for already-normalized options).
`parse` feeds `checkIfModifiedSince`; `canCompress` tells whether
`compress.NewResponseWriter` succeeds for the request (it fails when no
encoding can be negotiated); `dirListOk` is the outcome of the
directory-listing renderer; `openF` is the active provider's open
(`Ropen` when available, `Open` otherwise). -/
def fileServerHandler (parse : String → Option Int) (canCompress : Req → Bool)
    (dirListOk : Bool) (openF : String → Req → Option GEntry)
    (options : Options) (r : Req) : Resp :=
  let name := slashed r.path
  match resolveOpen openF options r with
  | none => { status := 404 }
  | some (f, indexFound) =>
    let info := f.info
    if info.isDir then
      if ¬ options.showList then { status := 404 }
      else
        let mo := checkIfModifiedSince parse r.method r.ims info.modTime
        if mo.1 = false ∧ mo.2 = none then { status := 304 }
        else
          let lm := info.modTime ≠ 0
          if dirListOk then { status := 200, lastModifiedSet := lm, body := some [] }
          else { status := 500, lastModifiedSet := lm }
    else if options.indexName ≠ "" ∧ strEnds name options.indexName then
      localRedirect r.rawQuery "./"
    else
      let allowOk := match options.allow with | some p => p name | none => true
      if allowOk = false then { status := 0, allowDenied := true }
      else
        let dispo := ¬ indexFound ∧ options.attachmentsEnable
        let enc := GetEncoding f
        let encoding := enc.1
        let isCached := enc.2
        let ce := if isCached then (if encoding ≠ "" then some encoding else none) else none
        let wrapped := if isCached then false else options.compress ∧ canCompress r
        { status := 200, contentEncoding := ce, compressWrapped := wrapped,
          dispositionSet := dispo, body := some f.contents }

/-- `FileServer`: normalize the options, then serve with the handler. -/
def fileServer (parse : String → Option Int) (canCompress : Req → Bool)
    (dirListOk : Bool) (openF : String → Req → Option GEntry)
    (options : Options) (r : Req) : Resp :=
  fileServerHandler parse canCompress dirListOk openF (normalizeOptions options) r

/-- Resolution of the relative reference "./" against the request
path, per RFC 3986 merge: everything up to and including the last
slash of the base path. This is how a client interprets the Location
header `localRedirect` sets. -/
def resolveDotRef (base : String) : String :=
  ⟨((base.data.reverse.dropWhile (· ≠ '/'))).reverse⟩

/-! ## Concrete instances used by counterexamples and witnesses -/

/-- A provider holding exactly the files /a/b.txt and /a/c/d.txt. -/
def exTree : FsTree :=
  .dir modeDir 5 [("a", .dir modeDir 5
    [("b.txt", .file 420 7 [1, 2]),
     ("c", .dir modeDir 5 [("d.txt", .file 420 9 [3, 4, 5])])])]

/-- A concrete deterministic codec registry: it has no algorithm named
by the empty string and prepends the name length otherwise. -/
def compConc (a : String) (bs : Bytes) : Option Bytes :=
  if a = "" then none else some (a.length :: bs)

/-- Concrete cache options: minimum size 300 bytes, no ignore pattern. -/
def optsConc : CacheOptions :=
  { compressMinSize := 300, compressIgnore := none, encodings := ["gzip", "br"] }

/-- Concrete cache options with a tiny minimum size so that the example
files are compressed. -/
def optsSmall : CacheOptions :=
  { compressMinSize := 2, compressIgnore := none, encodings := ["gzip", "brotli"] }

/-- A view of a directory entry: the base names and directory flags of
its children. -/
def childView (d : DirEntry) : List (String × Bool) :=
  d.children.map (fun fi => (fi.baseName, fi.isDir))

/-- The cache built over `exTree` with `compConc` and `optsConc`
(extracted from the `Option`; the build succeeds, as the witnesses
check). -/
def exCache : CacheFS :=
  (Cache compConc exTree optsConc).getD { n := 0, dirs := [], files := [], algs := [] }

/-- A placeholder cache file used to extract concrete lookups. -/
def cfileDefault : CFile :=
  { name := "", baseName := "", info := newFileInfo "" 0 0, algs := [] }

/-- The cache built over `exTree` with the small minimum size, so the
example files get compressed variants. -/
def exCacheSmall : CacheFS :=
  (Cache compConc exTree optsSmall).getD { n := 0, dirs := [], files := [], algs := [] }

/-- A concrete ignore predicate matching only /a/c/d.txt. -/
def ignoreConc : String → Bool := fun n => n = "/a/c/d.txt"

/-- Options with minimum size 2 and the concrete ignore predicate. -/
def optsIg : CacheOptions :=
  { compressMinSize := 2, compressIgnore := some ignoreConc, encodings := ["gzip", "brotli"] }

/-- The cache built over `exTree` with `optsIg`. -/
def exCacheIg : CacheFS :=
  (Cache compConc exTree optsIg).getD { n := 0, dirs := [], files := [], algs := [] }

/-- A concrete `http.ParseTime` stand-in: only the header value "X"
parses, to the instant 10. -/
def parseConc : String → Option Int := fun s => if s = "X" then some 10 else none

/-- A concrete cached open file for the handler witnesses. -/
def ofC7 : OpenFile :=
  { name := "/foo/index.html", baseName := "index.html",
    info := newFileInfo "index.html" 420 7, alg := "", contents := [9, 9] }

/-- A concrete provider open function: one cached file at
/foo/index.html. -/
def openFC7 : String → Req → Option GEntry :=
  fun n _ => if n = "/foo/index.html" then some (.cfile ofC7) else none

/-- Concrete serve options for the handler witnesses. -/
def optionsC7 : Options :=
  { indexName := "/index.html", compress := true, showList := false,
    attachmentsEnable := false, allow := none }

/-- A concrete request for /foo/index.html with a query string. -/
def reqC7 : Req :=
  { method := "GET", path := "/foo/index.html", rawQuery := "x=1", acceptEnc := "",
    ims := "" }

/-- A concrete cached file under a non-index name, and a non-cached
entry, for the C8 witness. -/
def ofC8 : OpenFile :=
  { name := "/foo/app.js", baseName := "app.js",
    info := newFileInfo "app.js" 420 7, alg := "gzip", contents := [5, 6] }

def openFC8 : String → Req → Option GEntry :=
  fun n _ =>
    if n = "/foo/app.js" then some (.cfile ofC8)
    else if n = "/plain.txt" then some (.pfile (newFileInfo "plain.txt" 420 7) [1]) else none

def reqC8 : Req :=
  { method := "GET", path := "/foo/app.js", rawQuery := "", acceptEnc := "gzip", ims := "" }

def reqC8plain : Req :=
  { method := "GET", path := "/plain.txt", rawQuery := "", acceptEnc := "gzip", ims := "" }

/-- The ordering the C2 claim asserts: every adjacent pair has the
earlier path with at least as many slashes as the later one
(descending). -/
abbrev adjacentDescBySlash : List String → Prop :=
  List.Chain' (fun a b => countSlash b ≤ countSlash a)

instance : IsTotal String byCount := ⟨fun a b => Nat.le_total (countSlash a) (countSlash b)⟩

instance : IsTrans String byCount :=
  ⟨fun _ _ _ h h' => Nat.le_trans h h'⟩

/-! # Theorems -/

/-! ## C1: the directory index built for /a/b.txt, /a/c/d.txt -/

/-- C1 (counterexample): over the provider holding exactly /a/b.txt and
/a/c/d.txt, the built directory index has NO entry for "/", and opening
"/" on the cached provider fails with ErrNotExist instead of
succeeding — a directory entry is created only for a directory that
directly contains at least one file. -/
theorem c1_root_missing_counterexample :
    (Cache compConc exTree optsConc).map (fun c => List.lookup "/" c.dirs) = some none ∧
    (Cache compConc exTree optsConc).bind (fun c => c.openFS "/") =
      some (.error .notExist) := by
  constructor <;> decide

/-- C1 (amended): over the provider holding exactly /a/b.txt and
/a/c/d.txt, the built index maps /a to an entry whose children are
b.txt and the subdirectory c, and /a/c to an entry whose child is
d.txt; but it contains no entry for / (the root receives an entry only
when a file lies directly under it), so opening "/" fails with
ErrNotExist. -/
theorem c1_directory_tree :
    (Cache compConc exTree optsConc).map (fun c =>
      ((List.lookup "/a" c.dirs).map childView,
       (List.lookup "/a/c" c.dirs).map childView,
       List.lookup "/" c.dirs)) =
      some (some [("b.txt", false), ("c", true)], some [("d.txt", false)], none) ∧
    (Cache compConc exTree optsConc).bind (fun c => c.openFS "/") =
      some (.error .notExist) := by
  constructor <;> decide

/-! ## C2: the order of the path sort -/

/-- C2 (counterexample): sorting the discovered paths
["/a/b/c.txt", "/x.txt"] yields ["/x.txt", "/a/b/c.txt"], whose first
element has fewer slashes than its second — the claimed descending
adjacent ordering fails. -/
theorem c2_sort_descending_counterexample :
    sortNames ["/a/b/c.txt", "/x.txt"] = ["/x.txt", "/a/b/c.txt"] ∧
    ¬ adjacentDescBySlash (sortNames ["/a/b/c.txt", "/x.txt"]) := by
  have hs : sortNames ["/a/b/c.txt", "/x.txt"] = ["/x.txt", "/a/b/c.txt"] := by decide
  refine ⟨hs, ?_⟩
  rw [hs]
  intro h
  have hle : countSlash "/a/b/c.txt" ≤ countSlash "/x.txt" := (List.chain'_cons.mp h).1
  revert hle
  decide

/-- C2 (amended): the cache builder sorts the discovered paths by
ASCENDING slash count (shallowest first): the result is a permutation
of the input in which every pair of paths (in particular every
adjacent pair) has the earlier one with at most as many slashes as the
later one. -/
theorem c2_sort_ascending (names : List String) :
    (sortNames names).Pairwise (fun a b => countSlash a ≤ countSlash b) ∧
    (sortNames names).Perm names := by
  exact ⟨List.sorted_insertionSort byCount names, List.perm_insertionSort byCount names⟩

/-! ## C3: the conditional-GET check -/

/-- C3: `checkIfModifiedSince` answers "unmodified" (false, nil)
exactly when the method is GET or HEAD, the If-Modified-Since header is
non-empty, the modification time is non-zero, the header parses, and
the modification time is strictly before the parsed time plus one
second; a wrong method, empty header or zero time yields the
precondition-failed error, and a parse failure yields the parse error
instead. -/
theorem c3_checkIfModifiedSince_spec (parse : String → Option Int) (method ims : String)
    (modtime : Int) :
    (checkIfModifiedSince parse method ims modtime = (false, none) ↔
      (method = "GET" ∨ method = "HEAD") ∧ ims ≠ "" ∧ modtime ≠ 0 ∧
        ∃ t, parse ims = some t ∧ modtime < t + 1)
    ∧ (¬ (method = "GET" ∨ method = "HEAD") ∨ ims = "" ∨ modtime = 0 →
        checkIfModifiedSince parse method ims modtime = (false, some .preconditionFailed))
    ∧ ((method = "GET" ∨ method = "HEAD") → ims ≠ "" → modtime ≠ 0 → parse ims = none →
        checkIfModifiedSince parse method ims modtime = (false, some .parseError)) := by
  by_cases h1 : method ≠ "GET" ∧ method ≠ "HEAD"
  · have h1' : ¬ (method = "GET" ∨ method = "HEAD") := by tauto
    have hval : checkIfModifiedSince parse method ims modtime =
        (false, some .preconditionFailed) := by
      unfold checkIfModifiedSince; rw [if_pos h1]
    refine ⟨?_, fun _ => hval, fun h => absurd h h1'⟩
    rw [hval]
    constructor
    · intro h; exact absurd (congrArg Prod.snd h) (by simp)
    · rintro ⟨h, -⟩; exact absurd h h1'
  · have h1' : method = "GET" ∨ method = "HEAD" := by tauto
    by_cases h2 : ims = "" ∨ modtime = 0
    · have hval : checkIfModifiedSince parse method ims modtime =
          (false, some .preconditionFailed) := by
        unfold checkIfModifiedSince; rw [if_neg h1, if_pos h2]
      refine ⟨?_, fun _ => hval, fun _ hi hz _ => absurd h2 (by tauto)⟩
      rw [hval]
      constructor
      · intro h; exact absurd (congrArg Prod.snd h) (by simp)
      · rintro ⟨-, hi, hz, -⟩; exact absurd h2 (by tauto)
    · have hi : ims ≠ "" := fun h => h2 (Or.inl h)
      have hz : modtime ≠ 0 := fun h => h2 (Or.inr h)
      cases hp : parse ims with
      | none =>
        have hval : checkIfModifiedSince parse method ims modtime =
            (false, some .parseError) := by
          unfold checkIfModifiedSince; rw [if_neg h1, if_neg h2, hp]
        refine ⟨?_, fun h => absurd h (by tauto), fun _ _ _ _ => hval⟩
        rw [hval]
        constructor
        · intro h; exact absurd (congrArg Prod.snd h) (by simp)
        · rintro ⟨-, -, -, t, ht, -⟩; cases ht
      | some t =>
        by_cases hlt : modtime < t + 1
        · have hval : checkIfModifiedSince parse method ims modtime = (false, none) := by
            simp only [checkIfModifiedSince, if_neg h1, if_neg h2, hp, if_pos hlt]
          refine ⟨?_, fun h => absurd h (by tauto), fun _ _ _ h => by cases h⟩
          rw [hval]
          exact ⟨fun _ => ⟨h1', hi, hz, t, rfl, hlt⟩, fun _ => rfl⟩
        · have hval : checkIfModifiedSince parse method ims modtime = (true, none) := by
            simp only [checkIfModifiedSince, if_neg h1, if_neg h2, hp, if_neg hlt]
          refine ⟨?_, fun h => absurd h (by tauto), fun _ _ _ h => by cases h⟩
          rw [hval]
          constructor
          · intro h; exact absurd (congrArg Prod.fst h) (by simp)
          · rintro ⟨-, -, -, t', ht', hlt'⟩
            injection ht' with ht''
            subst ht''
            exact absurd hlt' hlt

/-- C3 witness: a GET with a parsable header and modification time 5
before the parsed instant 10 plus one second answers (false, nil). -/
theorem c3_checkIfModifiedSince_spec_witness :
    checkIfModifiedSince parseConc "GET" "X" 5 = (false, none) :=
  (c3_checkIfModifiedSince_spec parseConc "GET" "X" 5).1.mpr
    ⟨Or.inl rfl, by decide, by decide, 10, by decide, by decide⟩

/-! ## Helper lemmas on the cache builder -/

theorem lookup_alUpdate {α : Type} (k k' : String) (v : α) (l : List (String × α)) :
    List.lookup k (alUpdate k' v l) = if k' = k then some v else List.lookup k l := by
  induction l with
  | nil =>
    by_cases h : k' = k
    · subst h; simp [alUpdate]
    · simp [alUpdate, h, List.lookup_cons, beq_false_of_ne (Ne.symm h)]
  | cons hd tl ih =>
    obtain ⟨k₀, v₀⟩ := hd
    by_cases h0 : k₀ = k'
    · subst h0
      by_cases h : k₀ = k
      · subst h; simp [alUpdate, List.lookup_cons]
      · simp [alUpdate, h, List.lookup_cons, beq_false_of_ne (Ne.symm h)]
    · by_cases h : k₀ = k
      · subst h
        have h0' : ¬ (k' = k₀) := fun hc => h0 hc.symm
        simp [alUpdate, h0, h0', List.lookup_cons]
      · simp [alUpdate, h0, h, List.lookup_cons, beq_false_of_ne (Ne.symm h), ih]

theorem strLower_empty : strLower "" = "" := rfl

theorem compressAll_preserve (comp : String → Bytes → Option Bytes) (contents : Bytes)
    (k : String) (bs : Bytes) (hv : comp (strLower k) contents = some bs)
    (as : List String) :
    ∀ algs₀ algs₁, compressAll comp contents as algs₀ = some algs₁ →
      List.lookup k algs₀ = some bs → List.lookup k algs₁ = some bs := by
  induction as with
  | nil => intro algs₀ algs₁ h hk; cases h; exact hk
  | cons a₀ rest ih =>
    intro algs₀ algs₁ h hk
    unfold compressAll at h
    split at h
    · cases h
    · rename_i bs₀ hc
      refine ih _ _ h ?_
      rw [lookup_alUpdate]
      split
      · rename_i heq
        rw [heq, hv] at hc
        injection hc with h'
        rw [h']
      · exact hk

theorem compressAll_lookup (comp : String → Bytes → Option Bytes) (contents : Bytes)
    (as : List String) :
    ∀ algs₀ algs₁, compressAll comp contents as algs₀ = some algs₁ →
      ∀ a bs, List.lookup a algs₁ = some bs →
        List.lookup a algs₀ = some bs ∨ comp (strLower a) contents = some bs := by
  induction as with
  | nil => intro algs₀ algs₁ h a bs hl; cases h; exact Or.inl hl
  | cons a₀ rest ih =>
    intro algs₀ algs₁ h a bs hl
    unfold compressAll at h
    split at h
    · cases h
    · rename_i bs₀ hc
      rcases ih _ _ h a bs hl with h' | h'
      · rw [lookup_alUpdate] at h'
        split at h'
        · rename_i heq
          injection h' with h''
          exact Or.inr (by rw [← heq, hc, h''])
        · exact Or.inl h'
      · exact Or.inr h'

theorem compressAll_keys (comp : String → Bytes → Option Bytes) (contents : Bytes)
    (as : List String) :
    ∀ algs₀ algs₁, compressAll comp contents as algs₀ = some algs₁ →
      ∀ a, (List.lookup a algs₁).isSome →
        (List.lookup a algs₀).isSome ∨ a ∈ as.map renameAlg := by
  induction as with
  | nil => intro algs₀ algs₁ h a hl; cases h; exact Or.inl hl
  | cons a₀ rest ih =>
    intro algs₀ algs₁ h a hl
    unfold compressAll at h
    split at h
    · cases h
    · rename_i bs₀ hc
      rcases ih _ _ h a hl with h' | h'
      · rw [lookup_alUpdate] at h'
        split at h'
        · rename_i heq
          exact Or.inr (by rw [← heq]; exact List.mem_cons_self _ _)
        · exact Or.inl h'
      · exact Or.inr (List.mem_cons_of_mem _ h')

theorem compressAll_empty_key (comp : String → Bytes → Option Bytes) (contents : Bytes)
    (hne : comp "" contents = none) (as : List String) :
    ∀ algs₀ algs₁, compressAll comp contents as algs₀ = some algs₁ →
      List.lookup "" algs₀ = some contents → List.lookup "" algs₁ = some contents := by
  induction as with
  | nil => intro algs₀ algs₁ h hk; cases h; exact hk
  | cons a₀ rest ih =>
    intro algs₀ algs₁ h hk
    unfold compressAll at h
    split at h
    · cases h
    · rename_i bs₀ hc
      refine ih _ _ h ?_
      rw [lookup_alUpdate]
      split
      · rename_i heq
        rw [heq, strLower_empty, hne] at hc
        cases hc
      · exact hk

theorem compressAll_empty_isSome (comp : String → Bytes → Option Bytes) (contents : Bytes)
    (as : List String) :
    ∀ algs₀ algs₁, compressAll comp contents as algs₀ = some algs₁ →
      (List.lookup "" algs₀).isSome → (List.lookup "" algs₁).isSome := by
  induction as with
  | nil => intro algs₀ algs₁ h hk; cases h; exact hk
  | cons a₀ rest ih =>
    intro algs₀ algs₁ h hk
    unfold compressAll at h
    split at h
    · cases h
    · rename_i bs₀ hc
      refine ih _ _ h ?_
      rw [lookup_alUpdate]
      split
      · simp
      · exact hk

theorem cacheFiles_lookup (comp : String → Bytes → Option Bytes) (fs : FsTree)
    (compressAlgs : List String) (compressMinSize : Int)
    (compressIgnore : Option (String → Bool)) (names : List String) :
    ∀ acc list,
      cacheFiles comp fs compressAlgs compressMinSize compressIgnore names acc = some list →
      ∀ n f, List.lookup n list = some f →
        cacheFile comp fs compressAlgs compressMinSize compressIgnore n = some f ∨
          List.lookup n acc = some f := by
  induction names with
  | nil => intro acc list h n f hl; cases h; exact Or.inr hl
  | cons n₀ rest ih =>
    intro acc list h n f hl
    unfold cacheFiles at h
    split at h
    · cases h
    · rename_i cf hcf
      rcases ih _ _ h n f hl with h' | h'
      · exact Or.inl h'
      · rw [lookup_alUpdate] at h'
        split at h'
        · rename_i heq
          injection h' with h''
          exact Or.inl (by rw [← heq, hcf, h''])
        · exact Or.inr h'

theorem cache_files_lookup (comp : String → Bytes → Option Bytes) (fs : FsTree)
    (opts : CacheOptions) (c : CacheFS) (hc : Cache comp fs opts = some c)
    (n : String) (f : CFile) (hf : List.lookup n c.files = some f) :
    cacheFile comp fs opts.encodings opts.compressMinSize opts.compressIgnore n = some f := by
  simp only [Cache] at hc
  split at hc
  · cases hc
  · split at hc
    · cases hc
    · rename_i hfiles
      cases hc
      rcases cacheFiles_lookup comp fs opts.encodings opts.compressMinSize
          opts.compressIgnore _ _ _ hfiles n f hf with h | h
      · exact h
      · simp at h

/-- Unfolding of `cacheFile`: the read contents, the produced metadata,
and the three branches producing the variant map. -/
theorem cacheFile_cases (comp : String → Bytes → Option Bytes) (fs : FsTree)
    (compressAlgs : List String) (compressMinSize : Int)
    (compressIgnore : Option (String → Bool)) (n : String) (f : CFile)
    (h : cacheFile comp fs compressAlgs compressMinSize compressIgnore n = some f) :
    ∃ t contents, fsOpen fs n = some t ∧ FsTree.readAll t = some contents ∧
      f.name = n ∧ f.info = newFileInfo (pathBase n) t.mode t.modTime ∧
      ((f.algs = [("", contents)] ∧
        ((compressMinSize > 0 ∧ compressMinSize > (contents.length : Int)) ∨
          ignoreMatches compressIgnore n = true)) ∨
       (¬ (compressMinSize > 0 ∧ compressMinSize > (contents.length : Int)) ∧
        ignoreMatches compressIgnore n = false ∧
        compressAll comp contents compressAlgs [("", contents)] = some f.algs)) := by
  unfold cacheFile at h
  split at h
  · cases h
  rename_i t ht
  split at h
  · cases h
  rename_i contents hr
  by_cases hsize : compressMinSize > 0 ∧ compressMinSize > (contents.length : Int)
  · rw [if_pos hsize] at h
    cases h
    exact ⟨t, contents, ht, hr, rfl, rfl, Or.inl ⟨rfl, Or.inl hsize⟩⟩
  · rw [if_neg hsize] at h
    by_cases hign : ignoreMatches compressIgnore n = true
    · rw [if_pos hign] at h
      cases h
      exact ⟨t, contents, ht, hr, rfl, rfl, Or.inl ⟨rfl, Or.inr hign⟩⟩
    · rw [if_neg hign] at h
      split at h
      · cases h
      · rename_i algs' hall
        cases h
        exact ⟨t, contents, ht, hr, rfl, rfl,
          Or.inr ⟨hsize, Bool.not_eq_true _ ▸ hign, hall⟩⟩

/-- Every cache-built file stores a variant under the empty key. -/
theorem cacheFile_empty_isSome (comp : String → Bytes → Option Bytes) (fs : FsTree)
    (compressAlgs : List String) (compressMinSize : Int)
    (compressIgnore : Option (String → Bool)) (n : String) (f : CFile)
    (h : cacheFile comp fs compressAlgs compressMinSize compressIgnore n = some f) :
    (List.lookup "" f.algs).isSome := by
  rcases cacheFile_cases comp fs compressAlgs compressMinSize compressIgnore n f h with
    ⟨t, contents, -, -, -, -, hcase⟩
  rcases hcase with ⟨halgs, -⟩ | ⟨-, -, hall⟩
  · rw [halgs]; simp [List.lookup]
  · exact compressAll_empty_isSome comp contents _ _ _ hall (by simp [List.lookup])

theorem compressAll_key_of_mem (comp : String → Bytes → Option Bytes) (contents : Bytes)
    (as : List String) :
    ∀ algs₀ algs₁, compressAll comp contents as algs₀ = some algs₁ →
      ∀ a ∈ as, ∃ bs, comp (strLower (renameAlg a)) contents = some bs ∧
        List.lookup (renameAlg a) algs₁ = some bs := by
  induction as with
  | nil => intro algs₀ algs₁ h a ha; cases ha
  | cons a₀ rest ih =>
    intro algs₀ algs₁ h a ha
    unfold compressAll at h
    split at h
    · cases h
    · rename_i bs₀ hc
      rcases List.mem_cons.mp ha with rfl | ha'
      · exact ⟨bs₀, hc, compressAll_preserve comp contents (renameAlg a) bs₀ hc rest _ _ h
          (by rw [lookup_alUpdate]; simp)⟩
      · exact ih _ _ h a ha'

theorem strLower_renameAlg (e : String) (he : strLower e = e) :
    strLower (renameAlg e) = renameAlg e := by
  unfold renameAlg
  split
  · decide
  · exact he

/-! ## C4: the variant-map invariant -/

/-- C4: for every file entry the cache builder produces, the variant
map holds the original contents under the empty key, and every other
key's bytes are the compression of those same contents with the named
algorithm — as the registry is handed the lowercased name, stated over
`strLower a`, and over `a` itself once the configured encodings are
lowercase (as all the built-in ones are). The hypothesis `hne` models
that the registry has no algorithm named by the empty string. -/
theorem c4_variant_map_invariant (comp : String → Bytes → Option Bytes) (fs : FsTree)
    (opts : CacheOptions) (c : CacheFS) (n : String) (f : CFile)
    (hne : ∀ bs, comp "" bs = none)
    (hc : Cache comp fs opts = some c) (hf : List.lookup n c.files = some f) :
    ∃ t contents, fsOpen fs n = some t ∧ FsTree.readAll t = some contents ∧
      List.lookup "" f.algs = some contents ∧
      (∀ a bs, a ≠ "" → List.lookup a f.algs = some bs →
        comp (strLower a) contents = some bs) ∧
      ((∀ e ∈ opts.encodings, strLower e = e) →
        ∀ a bs, a ≠ "" → List.lookup a f.algs = some bs → comp a contents = some bs) := by
  have hcf := cache_files_lookup comp fs opts c hc n f hf
  rcases cacheFile_cases _ _ _ _ _ _ _ hcf with ⟨t, contents, ht, hr, -, -, hcase⟩
  have hgen : ∀ a bs, a ≠ "" → List.lookup a f.algs = some bs →
      comp (strLower a) contents = some bs := by
    intro a bs ha hl
    rcases hcase with ⟨halgs, -⟩ | ⟨-, -, hall⟩
    · rw [halgs] at hl
      simp [List.lookup_cons, beq_false_of_ne ha] at hl
    · rcases compressAll_lookup comp contents _ _ _ hall a bs hl with h' | h'
      · simp [List.lookup_cons, beq_false_of_ne ha] at h'
      · exact h'
  refine ⟨t, contents, ht, hr, ?_, hgen, ?_⟩
  · rcases hcase with ⟨halgs, -⟩ | ⟨-, -, hall⟩
    · rw [halgs]; simp [List.lookup_cons]
    · exact compressAll_empty_key comp contents (hne contents) _ _ _ hall
        (by simp [List.lookup_cons])
  · intro hlow a bs ha hl
    have hlower : strLower a = a := by
      rcases hcase with ⟨halgs, -⟩ | ⟨-, -, hall⟩
      · rw [halgs] at hl
        simp [List.lookup_cons, beq_false_of_ne ha] at hl
      · rcases compressAll_keys comp contents _ _ _ hall a (by rw [hl]; rfl) with h' | h'
        · rw [Option.isSome_iff_exists] at h'
          obtain ⟨bs', hbs'⟩ := h'
          simp [List.lookup_cons, beq_false_of_ne ha] at hbs'
        · obtain ⟨e, he, rfl⟩ := List.mem_map.mp h'
          exact strLower_renameAlg e (hlow e he)
    rw [← hlower]
    exact hgen a bs ha hl

/-! ## C5: negotiated open over the cache -/

/-- C5: `Ropen` on a cached file path negotiates an encoding from the
request and the configured encodings; when the negotiated algorithm is
non-empty and its variant is stored, that variant's bytes come back and
`GetEncoding` reports the algorithm; otherwise the uncompressed
(empty-key) variant comes back and `GetEncoding` reports the empty
string. -/
theorem c5_ropen_negotiates (negotiate : String → List String → String)
    (comp : String → Bytes → Option Bytes) (fs : FsTree) (opts : CacheOptions)
    (c : CacheFS) (name : String) (r : Req) (f : CFile)
    (hc : Cache comp fs opts = some c)
    (hd : List.lookup (slashed name) c.dirs = none)
    (hf : List.lookup (slashed name) c.files = some f) :
    ∃ of, CacheFS.ropen negotiate c name r = some (.ok (.fileE of)) ∧
      GetEncoding (.cfile of) = (of.alg, true) ∧
      (∀ bs, negotiate r.acceptEnc c.algs ≠ "" →
        List.lookup (negotiate r.acceptEnc c.algs) f.algs = some bs →
        of.alg = negotiate r.acceptEnc c.algs ∧ of.contents = bs) ∧
      ((negotiate r.acceptEnc c.algs = "" ∨
        List.lookup (negotiate r.acceptEnc c.algs) f.algs = none) →
        of.alg = "" ∧ List.lookup "" f.algs = some of.contents) := by
  have hcf := cache_files_lookup comp fs opts c hc _ f hf
  have hempty := cacheFile_empty_isSome _ _ _ _ _ _ _ hcf
  cases hl : List.lookup (negotiate r.acceptEnc c.algs) f.algs with
  | some bs =>
    have hget : f.get (negotiate r.acceptEnc c.algs) =
        some { name := f.name, baseName := f.baseName, info := f.info,
               alg := negotiate r.acceptEnc c.algs, contents := bs } := by
      unfold CFile.get; rw [hl]
    refine ⟨{ name := f.name, baseName := f.baseName, info := f.info,
              alg := negotiate r.acceptEnc c.algs, contents := bs }, ?_, rfl, ?_, ?_⟩
    · simp only [CacheFS.ropen, hd, hf, hget]
    · intro bs' _ hl'
      injection hl' with h''
      exact ⟨rfl, h''⟩
    · rintro (he' | hnone)
      · refine ⟨he', ?_⟩
        rw [← he']
        exact hl
      · cases hnone
  | none =>
    obtain ⟨bs0, hbs0⟩ := Option.isSome_iff_exists.mp hempty
    have hget : f.get (negotiate r.acceptEnc c.algs) =
        some { name := f.name, baseName := f.baseName, info := f.info,
               alg := "", contents := bs0 } := by
      unfold CFile.get; rw [hl, hbs0]
    refine ⟨{ name := f.name, baseName := f.baseName, info := f.info,
              alg := "", contents := bs0 }, ?_, rfl, ?_, ?_⟩
    · simp only [CacheFS.ropen, hd, hf, hget]
    · intro bs' _ hl'; cases hl'
    · intro _; exact ⟨rfl, hbs0⟩

/-- C5 witness: a negotiated open of /a/b.txt over the compressed
example cache succeeds. -/
theorem c5_ropen_negotiates_witness :
    ∃ of, CacheFS.ropen (fun _ _ => "gzip") exCacheSmall "/a/b.txt"
        { method := "GET", path := "/a/b.txt", rawQuery := "", acceptEnc := "gzip", ims := "" } =
      some (.ok (.fileE of)) ∧ of.alg = "gzip" ∧ of.contents = [4, 1, 2] := by
  obtain ⟨of, h1, -, h3, -⟩ := c5_ropen_negotiates (fun _ _ => "gzip") compConc exTree
    optsSmall exCacheSmall "/a/b.txt"
    { method := "GET", path := "/a/b.txt", rawQuery := "", acceptEnc := "gzip", ims := "" }
    ((List.lookup "/a/b.txt" exCacheSmall.files).getD cfileDefault)
    (by decide) (by decide) (by decide)
  obtain ⟨ha, hb⟩ := h3 [4, 1, 2] (by decide) (by decide)
  exact ⟨of, h1, ha, hb⟩

/-- C4 witness: the invariant evaluated on /a/b.txt of the compressed
example cache. -/
theorem c4_variant_map_invariant_witness :
    ∃ t contents, fsOpen exTree "/a/b.txt" = some t ∧ FsTree.readAll t = some contents ∧
      List.lookup "" ((List.lookup "/a/b.txt" exCacheSmall.files).getD cfileDefault).algs =
        some contents := by
  obtain ⟨t, contents, h1, h2, h3, -, -⟩ := c4_variant_map_invariant compConc exTree optsSmall
    exCacheSmall "/a/b.txt" ((List.lookup "/a/b.txt" exCacheSmall.files).getD cfileDefault)
    (fun _ => rfl) (by decide) (by decide)
  exact ⟨t, contents, h1, h2, h3⟩

/-! ## C6: size and ignore thresholds -/

/-- C6: with a configured minimum size m > 0 and ignore pattern p, a
file of length exactly m (not matching p) receives a compressed variant
for every configured encoding; a file of length m-1 keeps only the
uncompressed variant; and a file matching p keeps only the uncompressed
variant regardless of its size. -/
theorem c6_compress_thresholds (comp : String → Bytes → Option Bytes) (fs : FsTree)
    (m : Int) (p : String → Bool) (encodings : List String) (c : CacheFS)
    (n : String) (f : CFile) (t : FsTree) (contents : Bytes)
    (hm : 0 < m)
    (hc : Cache comp fs
        { compressMinSize := m, compressIgnore := some p, encodings := encodings } = some c)
    (hf : List.lookup n c.files = some f)
    (ht : fsOpen fs n = some t) (hr : FsTree.readAll t = some contents) :
    (((contents.length : Int) = m ∧ p n = false) →
      ∀ a ∈ encodings, ∃ bs, comp (strLower (renameAlg a)) contents = some bs ∧
        List.lookup (renameAlg a) f.algs = some bs) ∧
    ((contents.length : Int) = m - 1 → f.algs = [("", contents)]) ∧
    (p n = true → f.algs = [("", contents)]) := by
  have hcf := cache_files_lookup comp fs _ c hc n f hf
  rcases cacheFile_cases _ _ _ _ _ _ _ hcf with ⟨t', contents', ht', hr', -, -, hcase⟩
  rw [ht] at ht'
  injection ht' with ht''
  subst ht''
  rw [hr] at hr'
  injection hr' with hr''
  subst hr''
  refine ⟨?_, ?_, ?_⟩
  · rintro ⟨hlen, hp⟩ a ha
    rcases hcase with ⟨-, hskip | hign⟩ | ⟨-, -, hall⟩
    · rw [hlen] at hskip
      exact absurd hskip.2 (lt_irrefl m)
    · rw [show ignoreMatches (some p) n = p n from rfl, hp] at hign
      cases hign
    · exact compressAll_key_of_mem comp _ _ _ _ hall a ha
  · intro hlen
    rcases hcase with ⟨halgs, -⟩ | ⟨hnskip, -, -⟩
    · exact halgs
    · exfalso
      refine hnskip ⟨hm, ?_⟩
      show m > (contents.length : Int)
      rw [hlen]
      omega
  · intro hp
    rcases hcase with ⟨halgs, -⟩ | ⟨-, hign, -⟩
    · exact halgs
    · rw [show ignoreMatches (some p) n = p n from rfl, hp] at hign
      cases hign

/-- C6 witness: in `exCacheIg` (minimum size 2, d.txt ignored),
/a/b.txt of length exactly 2 receives a gzip variant; /a/c/d.txt,
though large enough, stays uncompressed because it matches the ignore
predicate. -/
theorem c6_compress_thresholds_witness :
    (∃ bs, compConc (strLower (renameAlg "gzip")) [1, 2] = some bs ∧
      List.lookup (renameAlg "gzip")
        ((List.lookup "/a/b.txt" exCacheIg.files).getD cfileDefault).algs = some bs) ∧
    ((List.lookup "/a/c/d.txt" exCacheIg.files).getD cfileDefault).algs =
      [("", [3, 4, 5])] := by
  constructor
  · exact (c6_compress_thresholds compConc exTree 2 ignoreConc ["gzip", "brotli"]
      exCacheIg "/a/b.txt" ((List.lookup "/a/b.txt" exCacheIg.files).getD cfileDefault)
      (.file 420 7 [1, 2]) [1, 2] (by decide) (by decide) (by decide) rfl
      rfl).1 ⟨by decide, by decide⟩ "gzip" (by decide)
  · exact (c6_compress_thresholds compConc exTree 2 ignoreConc ["gzip", "brotli"]
      exCacheIg "/a/c/d.txt" ((List.lookup "/a/c/d.txt" exCacheIg.files).getD cfileDefault)
      (.file 420 9 [3, 4, 5]) [3, 4, 5] (by decide) (by decide) (by decide) rfl
      rfl).2.2 (by decide)

/-! ## C9: `Size()` is always zero on cache entries -/

/-- C9: every entry the cache produces reports `Size() = 0` through its
`fileInfo`, for directory entries (and each of their children) and for
file entries alike, whatever the stored content length. -/
theorem c9_stat_size_zero (comp : String → Bytes → Option Bytes) (fs : FsTree)
    (opts : CacheOptions) (c : CacheFS) (_hc : Cache comp fs opts = some c) :
    (∀ n d, List.lookup n c.dirs = some d →
      fileInfoSize d.info = 0 ∧ ∀ fi ∈ d.children, fileInfoSize fi = 0) ∧
    (∀ n f, List.lookup n c.files = some f → fileInfoSize f.info = 0) ∧
    (∀ n e, c.openFS n = some (.ok e) →
      fileInfoSize (match e with | .dirE d => d.info | .fileE of => of.info) = 0) :=
  ⟨fun _ _ _ => ⟨rfl, fun _ _ => rfl⟩, fun _ _ _ => rfl,
   fun _ e _ => by cases e <;> rfl⟩

/-- C9 witness: /a/b.txt has two bytes of content yet reports size 0. -/
theorem c9_stat_size_zero_witness :
    fileInfoSize ((List.lookup "/a/b.txt" exCache.files).getD cfileDefault).info = 0 ∧
    List.lookup "" ((List.lookup "/a/b.txt" exCache.files).getD cfileDefault).algs =
      some [1, 2] :=
  ⟨(c9_stat_size_zero compConc exTree optsConc exCache (by decide)).2.1 "/a/b.txt" _
      (by decide),
   by decide⟩

/-! ## C10: opens on the cache are total up to ErrNotExist -/

/-- C10: on a cache-built file system, `file.Get` succeeds for every
algorithm string (falling back to the always-present empty key), and
`Open`/`Ropen` neither diverge nor fail except with ErrNotExist, and
only on paths absent from both indexes. -/
theorem c10_open_total (comp : String → Bytes → Option Bytes) (fs : FsTree)
    (opts : CacheOptions) (c : CacheFS) (hc : Cache comp fs opts = some c) :
    (∀ n f alg, List.lookup n c.files = some f → ∃ of, f.get alg = some of) ∧
    (∀ name, c.openFS name ≠ none) ∧
    (∀ name e, c.openFS name = some (.error e) →
      e = .notExist ∧ List.lookup (slashed name) c.dirs = none ∧
        List.lookup (slashed name) c.files = none) ∧
    (∀ negotiate name r, CacheFS.ropen negotiate c name r ≠ none) ∧
    (∀ negotiate name r e, CacheFS.ropen negotiate c name r = some (.error e) →
      e = .notExist ∧ List.lookup (slashed name) c.dirs = none ∧
        List.lookup (slashed name) c.files = none) := by
  have hget : ∀ n f alg, List.lookup n c.files = some f → ∃ of, f.get alg = some of := by
    intro n f alg hf
    have hempty := cacheFile_empty_isSome _ _ _ _ _ _ _
      (cache_files_lookup comp fs opts c hc n f hf)
    unfold CFile.get
    cases hl : List.lookup alg f.algs with
    | some contents => exact ⟨_, rfl⟩
    | none =>
      obtain ⟨bs0, hbs0⟩ := Option.isSome_iff_exists.mp hempty
      rw [hbs0]
      exact ⟨_, rfl⟩
  refine ⟨hget, ?_, ?_, ?_, ?_⟩
  · intro name
    simp only [CacheFS.openFS]
    split
    · simp
    · split
      · rename_i f hf
        obtain ⟨of, hof⟩ := hget _ _ "" hf
        rw [hof]
        simp
      · simp
  · intro name e h
    simp only [CacheFS.openFS] at h
    split at h
    · exact absurd h (by simp)
    · rename_i hd
      split at h
      · rename_i f hf
        obtain ⟨of, hof⟩ := hget _ _ "" hf
        rw [hof] at h
        exact absurd h (by simp)
      · rename_i hf
        injection h with h'
        injection h' with h''
        exact ⟨h''.symm, hd, hf⟩
  · intro negotiate name r
    simp only [CacheFS.ropen]
    split
    · simp
    · split
      · rename_i f hf
        obtain ⟨of, hof⟩ := hget _ _ (negotiate r.acceptEnc c.algs) hf
        rw [hof]
        simp
      · simp
  · intro negotiate name r e h
    simp only [CacheFS.ropen] at h
    split at h
    · exact absurd h (by simp)
    · rename_i hd
      split at h
      · rename_i f hf
        obtain ⟨of, hof⟩ := hget _ _ (negotiate r.acceptEnc c.algs) hf
        rw [hof] at h
        exact absurd h (by simp)
      · rename_i hf
        injection h with h'
        injection h' with h''
        exact ⟨h''.symm, hd, hf⟩

/-- C10 witness: a missing path yields exactly ErrNotExist on the
example cache, and a present one opens for an arbitrary algorithm. -/
theorem c10_open_total_witness :
    exCache.openFS "/nope" ≠ none ∧
    (∃ of, CFile.get ((List.lookup "/a/b.txt" exCache.files).getD cfileDefault) "zstd" =
      some of) :=
  ⟨(c10_open_total compConc exTree optsConc exCache (by decide)).2.1 "/nope",
   (c10_open_total compConc exTree optsConc exCache (by decide)).1 "/a/b.txt" _ "zstd"
     (by decide)⟩

/-! ## Helper lemmas on strings for the redirect claim -/

theorem slashed_of_starts (s : String) (h : strStarts s "/" = true) : slashed s = s := by
  unfold slashed
  rw [if_neg]
  rintro (rfl | hs)
  · exact absurd h (by decide)
  · exact hs h

theorem normalizeOptions_id (o : Options) (h : strStarts o.indexName "/" = true) :
    normalizeOptions o = o := by
  unfold normalizeOptions
  have heq : (if o.indexName ≠ "" then slashed o.indexName else o.indexName) =
      o.indexName := by
    split
    · exact slashed_of_starts _ h
    · rfl
  rw [heq]

theorem dropWhile_append_of_all (p : Char → Bool) (xs ys : List Char)
    (h : ∀ x ∈ xs, p x = true) : (xs ++ ys).dropWhile p = ys.dropWhile p := by
  induction xs with
  | nil => rfl
  | cons x rest ih =>
    simp only [List.cons_append, List.dropWhile_cons, h x (List.mem_cons_self x rest)]
    exact ih (fun y hy => h y (List.mem_cons_of_mem x hy))

/-- Resolving "./" against a path that ends in a slash-free segment
yields the path with that segment removed (trailing slash kept), which
equals trimming that segment as a suffix. -/
theorem resolveDotRef_strip (s tail : String) (pre : List Char)
    (hs : s.data = pre ++ '/' :: tail.data)
    (hns : ∀ ch ∈ tail.data, ch ≠ '/') :
    resolveDotRef s = strTrimSuffix s tail := by
  unfold resolveDotRef strTrimSuffix
  have hsuf : tail.data.isSuffixOf s.data = true := by
    rw [List.isSuffixOf_iff_suffix]
    exact ⟨pre ++ ['/'], by rw [hs]; simp⟩
  rw [if_pos hsuf]
  have hrev : s.data.reverse = tail.data.reverse ++ '/' :: pre.reverse := by
    rw [hs]; simp
  rw [hrev, dropWhile_append_of_all _ _ _
    (fun x hx => by simpa using hns x (List.mem_reverse.mp hx))]
  rw [List.dropWhile_cons]
  simp only [decide_not, decide_True, Bool.not_true, Bool.false_eq_true, if_false,
    Bool.not_eq_true', decide_eq_false_iff_not, ne_eq, not_true_eq_false]
  have h2 : s.data.take (s.data.length - tail.data.length) = pre ++ ['/'] := by
    have hs' : s.data = (pre ++ ['/']) ++ tail.data := by rw [hs]; simp
    rw [hs', List.length_append]
    have hlen2 : (pre ++ ['/']).length + tail.data.length - tail.data.length =
        (pre ++ ['/']).length := by omega
    rw [hlen2, List.take_left]
  rw [h2]
  simp

/-! ## C7: explicit index requests are redirected -/

/-- C7: when the resolved entry is a file and the request path ends
with the configured index-file name, the server responds 301 with a
Location of "./" plus the unchanged raw query, serving no content; and
resolving "./" against the request path yields the path with the
index-file segment stripped (the trailing slash kept). -/
theorem c7_index_redirect (parse : String → Option Int) (canCompress : Req → Bool)
    (dirListOk : Bool) (openF : String → Req → Option GEntry) (options : Options)
    (r : Req) (ent : GEntry) (idxTail : String)
    (hidx : options.indexName = "/" ++ idxTail)
    (hnoslash : ∀ ch ∈ idxTail.data, ch ≠ '/')
    (hopen : openF (slashed r.path) r = some ent)
    (hfile : ent.info.isDir = false)
    (hends : strEnds (slashed r.path) options.indexName = true) :
    fileServer parse canCompress dirListOk openF options r =
      { status := 301,
        location := some (if r.rawQuery ≠ "" then "./" ++ "?" ++ r.rawQuery else "./") } ∧
    resolveDotRef (slashed r.path) = strTrimSuffix (slashed r.path) idxTail := by
  have hstart : strStarts options.indexName "/" = true := by
    rw [hidx]
    unfold strStarts
    rw [String.data_append]
    simp [List.isPrefixOf]
  have hne0 : options.indexName ≠ "" := by
    intro hcon
    have := congrArg String.data (hidx ▸ hcon)
    rw [String.data_append] at this
    simp at this
  constructor
  · simp only [fileServer, normalizeOptions_id options hstart]
    simp only [fileServerHandler, resolveOpen, hopen, hfile, Bool.false_eq_true, false_and,
      if_false, ne_eq, hne0, not_false_eq_true, true_and, hends, if_true, ite_false,
      localRedirect]
  · obtain ⟨pre, hpre⟩ := List.isSuffixOf_iff_suffix.mp (by unfold strEnds at hends; exact hends)
    refine resolveDotRef_strip _ _ pre ?_ hnoslash
    rw [← hpre, hidx, String.data_append]
    rfl

/-- C7 witness: requesting /foo/index.html?x=1 over a provider where it
is a file yields 301 with Location "./?x=1". -/
theorem c7_index_redirect_witness :
    fileServer (fun _ => none) (fun _ => false) true openFC7 optionsC7 reqC7 =
      { status := 301, location := some "./?x=1" } ∧
    resolveDotRef (slashed reqC7.path) = "/foo/" := by
  have h := c7_index_redirect (fun _ => none) (fun _ => false) true openFC7 optionsC7 reqC7
    (.cfile ofC7) "index.html" (by decide) (by decide) (by decide) (by decide) (by decide)
  refine ⟨?_, ?_⟩
  · rw [h.1]; decide
  · rw [h.2]; decide

/-! ## C8: cached entries are never re-compressed on the fly -/

/-- C8: a cached file reaching the serving stage is delivered with its
stored bytes and, when its recorded encoding is non-empty, the matching
Content-Encoding header, and the response writer is never wrapped in an
on-the-fly compressing writer; conversely, the writer is wrapped only
for a non-cached resolved entry with Options.Compress enabled and a
successfully negotiated compressing writer. -/
theorem c8_cached_not_recompressed (parse : String → Option Int) (canCompress : Req → Bool)
    (dirListOk : Bool) (openF : String → Req → Option GEntry) (options : Options)
    (r : Req) (f : OpenFile)
    (hopen : openF (slashed r.path) r = some (.cfile f))
    (hfile : f.info.isDir = false)
    (hnored : strEnds (slashed r.path) (normalizeOptions options).indexName = false)
    (hallow : ∀ p, options.allow = some p → p (slashed r.path) = true) :
    ((fileServer parse canCompress dirListOk openF options r).compressWrapped = false ∧
     (fileServer parse canCompress dirListOk openF options r).contentEncoding =
       (if f.alg ≠ "" then some f.alg else none) ∧
     (fileServer parse canCompress dirListOk openF options r).body = some f.contents ∧
     (fileServer parse canCompress dirListOk openF options r).status = 200) ∧
    (∀ (parse' : String → Option Int) (canCompress' : Req → Bool) (dirListOk' : Bool)
       (openF' : String → Req → Option GEntry) (options' : Options) (r' : Req),
      (fileServer parse' canCompress' dirListOk' openF' options' r').compressWrapped = true →
      options'.compress = true ∧ canCompress' r' = true ∧
      ∃ ent idxf, resolveOpen openF' (normalizeOptions options') r' = some (ent, idxf) ∧
        (GetEncoding ent).2 = false) := by
  constructor
  · have hro : resolveOpen openF (normalizeOptions options) r = some (.cfile f, false) := by
      simp only [resolveOpen, hopen, GEntry.info, hfile, Bool.false_eq_true, false_and,
        if_false]
    have hall : (match (normalizeOptions options).allow with
        | some p => p (slashed r.path) | none => true) = true := by
      show (match options.allow with | some p => p (slashed r.path) | none => true) = true
      cases hao : options.allow with
      | none => rfl
      | some p => exact hallow p hao
    refine ⟨?_, ?_, ?_, ?_⟩ <;>
      simp only [fileServer, fileServerHandler, hro, GEntry.info, GEntry.contents, hfile,
        Bool.false_eq_true, if_false, hnored, and_false, ne_eq, hall, GetEncoding,
        Bool.true_eq_false, ite_false, ite_true, if_true]
  · intro parse' canCompress' dirListOk' openF' options' r' hw
    simp only [fileServer, fileServerHandler] at hw
    split at hw
    · simp at hw
    · rename_i fent idxf hres
      split at hw
      · split at hw
        · simp at hw
        · split at hw
          · simp at hw
          · split at hw <;> simp at hw
      · split at hw
        · simp [localRedirect] at hw
        · split at hw
          · simp at hw
          · simp only [Resp.mk.injEq] at hw
            have hw' : (if (GetEncoding fent).2 = true then false
                else decide (options'.compress = true ∧ canCompress' r' = true)) = true := by
              simpa using hw
            by_cases hca : (GetEncoding fent).2 = true
            · rw [if_pos hca] at hw'
              cases hw'
            · rw [if_neg hca] at hw'
              have hdec := of_decide_eq_true hw'
              have hcf : (GetEncoding fent).2 = false := by
                cases h2 : (GetEncoding fent).2 with
                | true => exact absurd h2 hca
                | false => rfl
              exact ⟨hdec.1, hdec.2, fent, idxf, hres, hcf⟩

/-- C8 witness: the cached gzip variant of /foo/app.js is served with
the Content-Encoding header and no on-the-fly compression even with
Options.Compress on. -/
theorem c8_cached_not_recompressed_witness :
    (fileServer (fun _ => none) (fun _ => true) true openFC8 optionsC7 reqC8).compressWrapped
        = false ∧
    (fileServer (fun _ => none) (fun _ => true) true openFC8 optionsC7 reqC8).contentEncoding
        = some "gzip" := by
  have h := c8_cached_not_recompressed (fun _ => none) (fun _ => true) true openFC8 optionsC7
    reqC8 ofC8 (by decide) (by decide) (by decide) (fun p hp => by cases hp)
  refine ⟨h.1.1, ?_⟩
  rw [h.1.2.1]
  decide

end Httpfs
